import Mathlib

/-!
Verification of the LightDesertPiano harmony/emotion engine.

Shallow embedding of `emotion.py`, `harmony.py` and `engine.py` over exact
rational arithmetic (Python floats are modelled by `ℚ`, Python `int()`
truncation by `pyInt`, Python float `%` by `pyMod`, and the Python
`x or default` idiom on optional floats by `pyOrFloat`).
-/

namespace LDP

/-- Emotion vector (joy, melancholy, tension, blues), from `emotion.py`. -/
structure Emotion where
  joy : ℚ
  melancholy : ℚ
  tension : ℚ
  blues : ℚ
deriving DecidableEq

/-- Sum of the four components (Python `sum(v)`). -/
def emoSum (v : Emotion) : ℚ :=
  v.joy + v.melancholy + v.tension + v.blues

/-- `CHORD_TO_VEC` table from `emotion.py`. -/
def CHORD_TO_VEC : List (String × Emotion) :=
  [("maj", ⟨1, 0, 1/10, 1/10⟩),
   ("maj7", ⟨1, 0, 1/10, 1/10⟩),
   ("min", ⟨1/10, 1, 1/10, 1/10⟩),
   ("min7", ⟨1/10, 1, 1/10, 1/10⟩),
   ("dom7", ⟨3/10, 1/10, 1/10, 1⟩),
   ("sus2", ⟨1/2, 1/5, 1/5, 1/10⟩),
   ("sus4", ⟨1/2, 1/5, 1/5, 1/10⟩),
   ("dim", ⟨1/5, 1/10, 1, 1/10⟩),
   ("aug", ⟨2/5, 1/10, 4/5, 1/10⟩)]

/-- `SCALE_TO_VEC` table from `emotion.py`. -/
def SCALE_TO_VEC : List (String × Emotion) :=
  [("major", ⟨7/10, 0, 1/10, 1/5⟩),
   ("minor", ⟨1/10, 7/10, 1/10, 1/5⟩),
   ("major_pent", ⟨3/5, 0, 1/10, 3/10⟩),
   ("minor_pent", ⟨1/10, 3/5, 1/10, 3/10⟩),
   ("blues", ⟨1/5, 1/5, 1/10, 9/10⟩)]

/-- Python `table.get(key, (0,0,0,0))` where `key` may be `None`. -/
def lookupVec (tbl : List (String × Emotion)) (key : Option String) : Emotion :=
  match key with
  | none => ⟨0, 0, 0, 0⟩
  | some s =>
    match tbl.find? (fun p => p.1 = s) with
    | some p => p.2
    | none => ⟨0, 0, 0, 0⟩

/-- `_normalize` from `emotion.py`: divide by the component sum unless the sum
is at most `1e-9`, in which case return the zero vector. -/
def normalizeEmotion (v : Emotion) : Emotion :=
  let s := emoSum v
  if s ≤ 1/1000000000 then ⟨0, 0, 0, 0⟩
  else ⟨v.joy / s, v.melancholy / s, v.tension / s, v.blues / s⟩

/-- `ema` from `emotion.py`: componentwise `old + alpha * (target - old)`. -/
def ema (old target : Emotion) (alpha : ℚ) : Emotion :=
  ⟨old.joy + alpha * (target.joy - old.joy),
   old.melancholy + alpha * (target.melancholy - old.melancholy),
   old.tension + alpha * (target.tension - old.tension),
   old.blues + alpha * (target.blues - old.blues)⟩

/-- `combine` from `emotion.py`: weighted sum of the chord and scale
contributions, then `_normalize`. -/
def combine (chordQuality scaleMode : Option String) (wChord wScale : ℚ) : Emotion :=
  let c := lookupVec CHORD_TO_VEC chordQuality
  let sv := lookupVec SCALE_TO_VEC scaleMode
  normalizeEmotion
    ⟨wChord * c.joy + wScale * sv.joy,
     wChord * c.melancholy + wScale * sv.melancholy,
     wChord * c.tension + wScale * sv.tension,
     wChord * c.blues + wScale * sv.blues⟩

/-! ## harmony.py -/

/-- A detected chord `(root_pc, quality, confidence)` from `harmony.py`. -/
structure ChordT where
  root : ℕ
  quality : String
  conf : ℚ
deriving DecidableEq

/-- A detected scale `(root_pc, mode, confidence)` from `harmony.py`. -/
structure ScaleT where
  root : ℕ
  mode : String
  conf : ℚ
deriving DecidableEq

/-- `QUALITY_INTERVALS` from `harmony.py`, in source (insertion) order. -/
def QUALITY_INTERVALS : List (String × List ℕ) :=
  [("maj", [0, 4, 7]),
   ("min", [0, 3, 7]),
   ("dom7", [0, 4, 7, 10]),
   ("maj7", [0, 4, 7, 11]),
   ("min7", [0, 3, 7, 10]),
   ("sus2", [0, 2, 7]),
   ("sus4", [0, 5, 7]),
   ("dim", [0, 3, 6]),
   ("aug", [0, 4, 8])]

/-- `SCALE_TEMPLATES` from `harmony.py`, in source (insertion) order. -/
def SCALE_TEMPLATES : List (String × List ℕ) :=
  [("major", [0, 2, 4, 5, 7, 9, 11]),
   ("minor", [0, 2, 3, 5, 7, 8, 10]),
   ("major_pent", [0, 2, 4, 7, 9]),
   ("minor_pent", [0, 3, 5, 7, 10]),
   ("blues", [0, 3, 5, 6, 7, 10])]

/-- One step of the `pcs[pc] = max(pcs.get(pc, 0), vel)` dict update inside
`_pitch_classes`; the association list plays the Python dict, keeping keys in
insertion order. -/
def updatePc : List (ℕ × ℕ) → ℕ → ℕ → List (ℕ × ℕ)
  | [], pc, vel => [(pc, vel)]
  | (k, v) :: rest, pc, vel =>
    if k = pc then (k, max v vel) :: rest else (k, v) :: updatePc rest pc vel

/-- `_pitch_classes` from `harmony.py`: collapse held notes (note → velocity)
to a pitch-class → max-velocity mapping. -/
def pitchClasses (active : List (ℕ × ℕ)) : List (ℕ × ℕ) :=
  active.foldl (fun pcs nv => updatePc pcs (nv.1 % 12) nv.2) []

/-- `_score_quality_for_root` from `harmony.py`:
`0.7 * coverage + 0.3 * precision`. -/
def scoreQualityForRoot (pcs : List (ℕ × ℕ)) (rootPc : ℕ) (intervals : List ℕ) : ℚ :=
  let hits := (intervals.filter (fun iv => pcs.any (fun p => p.1 = (rootPc + iv) % 12))).length
  let coverage : ℚ := (hits : ℚ) / ((max intervals.length 1 : ℕ) : ℚ)
  let chordSet := intervals.map (fun iv => (rootPc + iv) % 12)
  let precision : ℚ :=
    (((pcs.filter (fun p => p.1 ∈ chordSet)).length : ℕ) : ℚ) / ((max pcs.length 1 : ℕ) : ℚ)
  7/10 * coverage + 3/10 * precision

/-- Minimum of a list of naturals (`min(active_notes.keys())`); the `[]` case
is never reached behind the nonempty guard of `detect_chord`. -/
def listMin : List ℕ → ℕ
  | [] => 0
  | x :: xs => xs.foldl min x

/-- Loop body of the best-candidate search in `detect_chord`: skip scores
below `0.5`, otherwise keep the strictly better of `best` and the new
`(root, quality, score)`. -/
def chordStep (pcs : List (ℕ × ℕ)) (best : Option ChordT) (x : ℕ × String × List ℕ) :
    Option ChordT :=
  let score := scoreQualityForRoot pcs x.1 x.2.2
  if score < 1/2 then best
  else
    match best with
    | none => some ⟨x.1, x.2.1, score⟩
    | some b => if score > b.conf then some ⟨x.1, x.2.1, score⟩ else some b

/-- `detect_chord` from `harmony.py`. The nested `for root_pc in candidates:
for quality, intervals in QUALITY_INTERVALS.items():` loop is flattened into a
fold over the root × quality pair list in the same iteration order; the
`candidates` set is the pitch-class keys in insertion order, with the bass
pitch class appended when absent (it never is, since the bass note itself
contributes its pitch class). -/
def detect_chord (active : List (ℕ × ℕ)) : Option ChordT :=
  if active.length < 2 then none
  else
    let pcs := pitchClasses active
    if pcs.length < 2 then none
    else
      let bassPc := listMin (active.map Prod.fst) % 12
      let ks := pcs.map Prod.fst
      let candidates := if bassPc ∈ ks then ks else ks ++ [bassPc]
      (candidates.flatMap (fun root => QUALITY_INTERVALS.map (fun q => (root, q)))).foldl
        (chordStep pcs) none

/-- An event `(ts, note, is_on, velocity)` as stored in the engine's deque. -/
abbrev EventT := ℚ × ℕ × Bool × ℕ

/-- `_pc_histogram` from `harmony.py`: recency-weighted 12-bin histogram of
note-on pitch classes inside the window. -/
def pcHistogram (events : List EventT) (now windowS : ℚ) : List ℚ :=
  let cutoff := now - windowS
  events.foldl
    (fun hist e =>
      if e.1 < cutoff then hist
      else if e.2.2.1 then
        let pc := e.2.1 % 12
        let w := max 0 ((e.1 - cutoff) / windowS)
        hist.set pc (hist.getD pc 0 + (e.2.2.2 : ℚ) / 127 * (1/2 + 1/2 * w))
      else hist)
    (List.replicate 12 0)

/-- Loop body of `detect_scale`: `coverage = in_sum / total` for a template
rotated to a root (`_rotate_template` inlined; the rotated pitch classes are
pairwise distinct, so the list sum equals the Python set sum). -/
def coverageFor (hist : List ℚ) (rootPc : ℕ) (templ : List ℕ) : ℚ :=
  let templSet := templ.map (fun t => (rootPc + t) % 12)
  let inSum := (templSet.map (fun pc => hist.getD pc 0)).sum
  let total := hist.sum
  inSum / total

/-- Loop body of the best-coverage search in `detect_scale`: keep the
strictly better of `best` and the new `(root, mode, coverage)`. -/
def scaleStep (hist : List ℚ) (best : Option ScaleT) (x : String × List ℕ × ℕ) :
    Option ScaleT :=
  let coverage := coverageFor hist x.2.2 x.2.1
  match best with
  | none => some ⟨x.2.2, x.1, coverage⟩
  | some b => if coverage > b.conf then some ⟨x.2.2, x.1, coverage⟩ else some b

/-- Best-coverage fold of `detect_scale` over a flattened
`(mode, template, root)` list in source iteration order. -/
def scaleFold (hist : List ℚ) : Option ScaleT :=
  (SCALE_TEMPLATES.flatMap (fun mt => (List.range 12).map (fun r => (mt.1, mt.2, r)))).foldl
    (scaleStep hist) none

/-- `detect_scale` from `harmony.py`. -/
def detect_scale (events : List EventT) (now windowS : ℚ) : Option ScaleT :=
  if events = [] then none
  else
    let hist := pcHistogram events now windowS
    if hist.sum < 1/1000000 then none
    else scaleFold hist

/-- `ChordTracker` state from `harmony.py`. -/
structure ChordTracker where
  stability_ms : ℚ
  hold_ms : ℚ
  current : Option ChordT
  candidate : Option ChordT
  candidate_since : Option ℚ
  last_change : Option ℚ
deriving DecidableEq

/-- `ChordTracker.__init__`: no validation is performed; the arguments are
stored unchanged (defaults in the source are 300 and 800). -/
def ChordTracker.init (stabilityMs holdMs : ℚ) : ChordTracker :=
  ⟨stabilityMs, holdMs, none, none, none, none⟩

/-- Python `x or default` on an optional float: `None` and `0.0` are both
falsy, so both map to the default. -/
def pyOrFloat (o : Option ℚ) (d : ℚ) : ℚ :=
  match o with
  | none => d
  | some x => if x = 0 then d else x

/-- `ChordTracker.update` from `harmony.py`. Returns the updated tracker
together with the returned `(chord, changed)` pair. -/
def ChordTracker.update (t : ChordTracker) (active : List (ℕ × ℕ)) (now : ℚ) :
    ChordTracker × Option ChordT × Bool :=
  match detect_chord active with
  | none => ({ t with candidate := none, candidate_since := none }, t.current, false)
  | some cand =>
    match t.candidate with
    | none =>
      ({ t with candidate := some cand, candidate_since := some now }, t.current, false)
    | some c0 =>
      if (cand.root, cand.quality) ≠ (c0.root, c0.quality) then
        ({ t with candidate := some cand, candidate_since := some now }, t.current, false)
      else
        if (now - pyOrFloat t.candidate_since now) * 1000 ≥ t.stability_ms then
          match t.current with
          | none =>
            ({ t with current := some cand, last_change := some now }, some cand, true)
          | some cur =>
            if (now - pyOrFloat t.last_change 0) * 1000 ≥ t.hold_ms then
              if cand.conf ≥ cur.conf + 1/20 then
                ({ t with current := some cand, last_change := some now }, some cand,
                  decide ((cand.root, cand.quality) ≠ (cur.root, cur.quality)))
              else (t, t.current, false)
            else (t, t.current, false)
        else (t, t.current, false)

/-! ## engine.py -/

/-- Python `int()` on a float: truncation toward zero. -/
def pyInt (q : ℚ) : ℤ := if 0 ≤ q then ⌊q⌋ else ⌈q⌉

/-- Python float `%` (used with the positive modulus 360). -/
def pyMod (x m : ℚ) : ℚ := x - m * ⌊x / m⌋

/-- The hue-biasing part of `apply_emotion_to_color` in `engine.py`: the
`biased_hue` value fed to the HSV→RGB conversion (the conversion itself is a
colorspace primitive, out of scope per the spec). -/
def biasedHue (baseHue warmthBias : ℚ) : ℚ :=
  if warmthBias > 0 then pyMod (baseHue + warmthBias * 30) 360
  else pyMod (baseHue + 240 - |warmthBias| * 60) 360

/-- The `overrides['bg']` record computed by `RTState.tick`. -/
structure BgOverride where
  brightness : ℤ
  warmth_bias : ℚ
  saturation_boost : ℤ
  chord_root : Option ℕ
  scale_root : Option ℕ
deriving DecidableEq

/-- The `overrides['runner']` record computed by `RTState.tick`. -/
structure RunnerOverride where
  speed : ℤ
  warmth_bias : ℚ
  chord_root : Option ℕ
deriving DecidableEq

/-- The `overrides['mon']` record computed by `RTState.tick` on a chord
change; the empty dict is modelled by `none` at the use site. -/
structure MonOverride where
  intensity : ℤ
  chord_root : ℕ
  chord_quality : String
deriving DecidableEq

/-- `RTState` from `engine.py`. The three override dicts start out empty
(`none`) and are fully replaced on every tick. -/
structure RTState where
  events : List EventT
  vel_s : ℚ
  rate_s : ℚ
  last_rate_calc_ts : ℚ
  event_count_window : List ℚ
  chord_tracker : ChordTracker
  scale : Option ScaleT
  scale_window_s : ℚ
  last_scale_refresh : ℚ
  emotion : Emotion
  bg : Option BgOverride
  runner : Option RunnerOverride
  mon : Option MonOverride
deriving DecidableEq

/-- `RTState.__init__`: no validation is performed; the scale-window argument
is stored unchanged (source default 3.0). -/
def RTState.init (scaleWindowS : ℚ) : RTState :=
  { events := [], vel_s := 0, rate_s := 0, last_rate_calc_ts := 0,
    event_count_window := [], chord_tracker := ChordTracker.init 300 800,
    scale := none, scale_window_s := scaleWindowS, last_scale_refresh := 0,
    emotion := ⟨0, 0, 0, 0⟩, bg := none, runner := none, mon := none }

/-- `RTState.tick` from `engine.py`: chord update with stability/hold, the
≥ 1s-cadence scale refresh, the emotion EMA (α = 0.15), and the per-zone
override records. -/
def RTState.tick (s : RTState) (active : List (ℕ × ℕ)) (now : ℚ) : RTState :=
  let u := s.chord_tracker.update active now
  let tracker := u.1
  let chord := u.2.1
  let chordChanged := u.2.2
  let scaleRef : Option ScaleT × ℚ :=
    if now - s.last_scale_refresh ≥ 1 then
      (match detect_scale s.events now s.scale_window_s with
       | some sc => (some sc, now)
       | none => (s.scale, now))
    else (s.scale, s.last_scale_refresh)
  let scale := scaleRef.1
  let target := combine (chord.map ChordT.quality) (scale.map ScaleT.mode) (3/5) (1/2)
  let emotion := ema s.emotion target (3/20)
  let warmthBias := emotion.joy - emotion.melancholy
  let saturationBoost := pyInt (emotion.tension * 50)
  let accentMultiplier := 1 + emotion.tension * (1/2)
  let bg : BgOverride :=
    ⟨pyInt (max 0 (min 255 s.vel_s)), warmthBias, saturationBoost,
     chord.map ChordT.root, scale.map ScaleT.root⟩
  let runner : RunnerOverride :=
    ⟨pyInt (max 0 (min 255 (s.rate_s * 20))), warmthBias, chord.map ChordT.root⟩
  let mon : Option MonOverride :=
    if chordChanged then
      (match chord with
       | some c =>
         some ⟨pyInt (160 * max 0 (min 1 c.conf) * accentMultiplier), c.root, c.quality⟩
       | none => none)
    else none
  { s with
    chord_tracker := tracker
    scale := scale
    last_scale_refresh := scaleRef.2
    emotion := emotion
    bg := some bg
    runner := some runner
    mon := mon }

/-- A sequence of `tick` calls (held-notes snapshot, timestamp), left to
right. -/
def runTicks (s : RTState) (l : List (List (ℕ × ℕ) × ℚ)) : RTState :=
  l.foldl (fun st p => st.tick p.1 p.2) s

/-! ## Concrete inputs used by counterexamples and witnesses -/

/-- C major triad in close position: C4, E4, G4 at velocity 100. -/
def cTriad : List (ℕ × ℕ) := [(60, 100), (64, 100), (67, 100)]

/-- C major triad plus a C♯: still detected as C "maj", with the lower
confidence 37/40 = 0.925. -/
def cTriadExtra : List (ℕ × ℕ) := [(60, 100), (64, 100), (67, 100), (61, 100)]

/-- Engine state after one tick on a fresh engine, holding a C major triad at
time 1. -/
def rt1 : RTState := (RTState.init 3).tick cTriad 1

/-- Engine state after a second tick at time 1.4 (the chord is accepted on
this tick: 400 ms of stability has elapsed). -/
def rt2 : RTState := rt1.tick cTriad (7/5)

/-- A fresh chord tracker with the source defaults. -/
def ct0 : ChordTracker := ChordTracker.init 300 800

/-- First update: the fuzzy voicing becomes the pending candidate at time 1. -/
def ctStep1 : ChordTracker × Option ChordT × Bool := ct0.update cTriadExtra 1

def ct1 : ChordTracker := ctStep1.1

/-- Second update at time 1.4: the candidate is accepted (stability elapsed,
no current chord yet). -/
def ctStep2 : ChordTracker × Option ChordT × Bool := ct1.update cTriadExtra (7/5)

def ct2 : ChordTracker := ctStep2.1

/-- Third update at time 2.3 with the pure triad: same (root, quality) as the
current chord but higher confidence; the hold window has elapsed. -/
def ctStep3 : ChordTracker × Option ChordT × Bool := ct2.update cTriad (23/10)

def ct3 : ChordTracker := ctStep3.1

/-- Event log holding exactly the 7 pitch classes of C major, equally
weighted (velocity 100), all at timestamp 3, scored at `now = 3` with the
default 3-second window. -/
def cMajorLog : List EventT :=
  [(3, 0, true, 100), (3, 2, true, 100), (3, 4, true, 100), (3, 5, true, 100),
   (3, 7, true, 100), (3, 9, true, 100), (3, 11, true, 100)]

/-- The C-major indicator histogram scaled by a weight `w`. -/
def cMajorHist (w : ℚ) : List ℚ := [w, 0, w, 0, w, w, 0, w, 0, w, 0, w]

/-- The pitch-class set of a pure major triad on root `r`. -/
def triadPcs (r : ℕ) : Finset ℕ := {r % 12, (r + 4) % 12, (r + 7) % 12}

/-- The pitch classes of a pure major triad on root `r`, as a list in
canonical order. -/
def triadList (r : ℕ) : List ℕ := [r % 12, (r + 4) % 12, (r + 7) % 12]

/-- `scoreQualityForRoot` re-expressed on the list of sounding pitch-class
keys: the score reads the pitch-class mapping only through key membership and
key count, never through the stored velocities. -/
def scoreKeys (ks : List ℕ) (rootPc : ℕ) (intervals : List ℕ) : ℚ :=
  let hits := (intervals.filter (fun iv => (rootPc + iv) % 12 ∈ ks)).length
  let coverage : ℚ := (hits : ℚ) / ((max intervals.length 1 : ℕ) : ℚ)
  let chordSet := intervals.map (fun iv => (rootPc + iv) % 12)
  let precision : ℚ :=
    (((ks.filter (fun pc => pc ∈ chordSet)).length : ℕ) : ℚ) / ((max ks.length 1 : ℕ) : ℚ)
  7/10 * coverage + 3/10 * precision

/-- C9: for every pair of emotion vectors, `ema old target 1 = target`
exactly and `ema old target 0 = old` exactly (boundary values of the
smoothing constant). -/
theorem C9_ema_boundary (old target : Emotion) :
    ema old target 1 = target ∧ ema old target 0 = old := by
  cases old
  cases target
  refine ⟨?_, ?_⟩ <;> simp only [ema, Emotion.mk.injEq] <;>
    refine ⟨by ring, by ring, by ring, by ring⟩

/-- C10: calling the hue-biasing of `apply_emotion_to_color` with
`warmth_bias = 0` takes the cool branch and yields `(base_hue + 240) mod 360`,
never the unshifted base hue, so zero warmth is not an identity on hue. -/
theorem C10_zero_warmth_not_identity (baseHue : ℚ) :
    biasedHue baseHue 0 = pyMod (baseHue + 240) 360 ∧
    biasedHue baseHue 0 ≠ baseHue := by
  have h1 : biasedHue baseHue 0 = pyMod (baseHue + 240) 360 := by
    simp [biasedHue]
  refine ⟨h1, ?_⟩
  rw [h1]
  intro heq
  have h2 : pyMod (baseHue + 240) 360
      = baseHue + 240 - 360 * (⌊(baseHue + 240) / 360⌋ : ℤ) := rfl
  rw [h2] at heq
  have h3 : (3 * (⌊(baseHue + 240) / 360⌋ : ℤ) : ℚ) = 2 := by linarith
  have h4 : 3 * (⌊(baseHue + 240) / 360⌋ : ℤ) = 2 := by exact_mod_cast h3
  omega

/-- C8: a held-note mapping whose notes collapse to 0 or 1 distinct pitch
classes (empty, a single note, or one note held in several octaves) makes
`detect_chord` return `none`. -/
theorem C8_insufficient_pitch_classes (active : List (ℕ × ℕ))
    (h : (pitchClasses active).length ≤ 1) :
    detect_chord active = none := by
  by_cases h2 : active.length < 2
  · simp [detect_chord, h2]
  · have h3 : (pitchClasses active).length < 2 := by omega
    simp [detect_chord, h2, h3]

/-- Witness for C8: C4 and C5(octave up) collapse to the single pitch class
0, and no chord is detected. -/
theorem C8_witness :
    (pitchClasses [(60, 100), (72, 90)]).length ≤ 1 ∧
    detect_chord [(60, 100), (72, 90)] = none :=
  ⟨by decide, C8_insufficient_pitch_classes _ (by decide)⟩

/-- C6: when a current chord is held and no chord is detected (e.g. silence),
`ChordTracker.update` leaves `current` unchanged, clears only the pending
candidate, and returns `(current, changed = false)`. -/
theorem C6_silence_preserves_current (t : ChordTracker) (active : List (ℕ × ℕ))
    (now : ℚ) (c : ChordT) (hcur : t.current = some c)
    (hdet : detect_chord active = none) :
    t.update active now =
      ({ t with candidate := none, candidate_since := none }, some c, false) := by
  simp [ChordTracker.update, hdet, hcur]

/-- A tracker with an accepted chord and a stale pending candidate, used to
witness C6. -/
def ctSilent : ChordTracker :=
  ⟨300, 800, some ⟨0, "maj", 1⟩, some ⟨7, "maj", 9/10⟩, some 1, some 1⟩

/-- Witness for C6: updating `ctSilent` on silence keeps the current chord
and only drops the candidate. -/
theorem C6_witness :
    ctSilent.update [] 2 =
      ({ ctSilent with candidate := none, candidate_since := none },
        some ⟨0, "maj", 1⟩, false) :=
  C6_silence_preserves_current ctSilent [] 2 ⟨0, "maj", 1⟩ rfl (by decide)

/-- Counterexample to C5: constructing the chord tracker with a negative
stability window, and the engine with a negative scale window, succeeds — the
non-positive values are stored unchanged and no construction-time error
exists in the code. -/
theorem C5_counterexample :
    (ChordTracker.init (-1) 800).stability_ms = -1 ∧
    (ChordTracker.init (-1) 800).current = none ∧
    (RTState.init (-2)).scale_window_s = -2 :=
  ⟨rfl, rfl, rfl⟩

/-- C5 amended: construction performs no validation at all — both
constructors accept every rational argument and store it unchanged. -/
theorem C5_amended_no_validation (a b w : ℚ) :
    (ChordTracker.init a b).stability_ms = a ∧
    (ChordTracker.init a b).hold_ms = b ∧
    (RTState.init w).scale_window_s = w :=
  ⟨rfl, rfl, rfl⟩

/-- Counterexample to C1: on the second tick the chord signal is non-null
(the C major chord has just been accepted), yet the emotion vector sums to
3/20, not 1 within 1e-6. -/
theorem C1_counterexample :
    rt2.chord_tracker.current ≠ none ∧
    ¬ (|emoSum rt2.emotion - 1| ≤ 1/1000000) := by
  have h2 : rt2.chord_tracker.current = some ⟨0, "maj", 1⟩ ∧
      rt2.emotion = ⟨1/8, 0, 1/80, 1/80⟩ := by
    norm_num [rt2, rt1, RTState.init, RTState.tick, ChordTracker.init,
      ChordTracker.update, detect_chord, detect_scale, pitchClasses, updatePc,
      listMin, chordStep, scoreQualityForRoot, QUALITY_INTERVALS, cTriad,
      pyOrFloat, combine, lookupVec, normalizeEmotion, emoSum, ema,
      CHORD_TO_VEC, SCALE_TO_VEC, pyInt]
  refine ⟨by rw [h2.1]; simp, ?_⟩
  intro hle
  rw [h2.2] at hle
  simp only [emoSum] at hle
  rw [abs_le] at hle
  linarith [hle.1]

/-- Counterexample to C4: on the second tick the background zone's
`saturation_boost` is 0 (Python `int()` truncation of tension×50 = 5/8),
while rounding to nearest gives 1. -/
theorem C4_counterexample :
    rt2.bg.map BgOverride.saturation_boost = some 0 ∧
    round (rt2.emotion.tension * 50) = (1 : ℤ) := by
  have h2 : rt2.bg.map BgOverride.saturation_boost = some 0 ∧
      rt2.emotion.tension = 1/80 := by
    norm_num [rt2, rt1, RTState.init, RTState.tick, ChordTracker.init,
      ChordTracker.update, detect_chord, detect_scale, pitchClasses, updatePc,
      listMin, chordStep, scoreQualityForRoot, QUALITY_INTERVALS, cTriad,
      pyOrFloat, combine, lookupVec, normalizeEmotion, emoSum, ema,
      CHORD_TO_VEC, SCALE_TO_VEC, pyInt]
  refine ⟨h2.1, ?_⟩
  rw [h2.2]
  norm_num [round_eq]

/-- Counterexample to C2: on the equally-weighted C-major log the estimator
does return (C, "major") with coverage 1, but that coverage is not strictly
greater than every other combination's — (A, "minor"), the relative minor,
also attains coverage 1. -/
theorem C2_counterexample :
    detect_scale cMajorLog 3 3 = some ⟨0, "major", 1⟩ ∧
    ¬ (∀ mt ∈ SCALE_TEMPLATES, ∀ root < 12, (root, mt.1) ≠ (0, "major") →
        coverageFor (pcHistogram cMajorLog 3 3) root mt.2 < 1) := by
  constructor
  · norm_num [detect_scale, scaleFold, scaleStep, pcHistogram, coverageFor,
      SCALE_TEMPLATES, cMajorLog, List.range_succ, List.replicate]
    intro h
    simp at h
  · intro hall
    have h9 := hall ("minor", [0, 2, 3, 5, 7, 8, 10]) (by norm_num [SCALE_TEMPLATES])
      9 (by norm_num) (by norm_num)
    have hcov : coverageFor (pcHistogram cMajorLog 3 3) 9 [0, 2, 3, 5, 7, 8, 10] = 1 := by
      norm_num [pcHistogram, coverageFor, cMajorLog, List.replicate]
    rw [hcov] at h9
    exact absurd h9 (by norm_num)

/-- The chord returned by `ChordTracker.update` is always the tracker's
`current` field after the update (the source returns `self.current` after
mutating it). -/
lemma update_returns_current (t : ChordTracker) (active : List (ℕ × ℕ)) (now : ℚ) :
    (t.update active now).2.1 = (t.update active now).1.current := by
  unfold ChordTracker.update
  repeat' split
  all_goals rfl

/-- C4 amended: the three derived integer override fields are computed with
Python `int()` truncation toward zero, not rounding to nearest:
`saturation_boost = int(tension*50)`, `speed = int(clamp(rate_s*20, 0, 255))`,
and on a chord change `intensity = int(160 * clamp(conf, 0, 1) *
(1 + tension*0.5))`. -/
theorem C4_amended (s : RTState) (active : List (ℕ × ℕ)) (now : ℚ) :
    ((s.tick active now).bg.map BgOverride.saturation_boost
      = some (pyInt ((s.tick active now).emotion.tension * 50))) ∧
    ((s.tick active now).runner.map RunnerOverride.speed
      = some (pyInt (max 0 (min 255 (s.rate_s * 20))))) ∧
    (∀ m, (s.tick active now).mon = some m →
      ∃ c, (s.tick active now).chord_tracker.current = some c ∧
        m.intensity = pyInt (160 * (max 0 (min 1 c.conf))
          * (1 + (s.tick active now).emotion.tension * (1/2)))) := by
  have hret := update_returns_current s.chord_tracker active now
  rcases hu : s.chord_tracker.update active now with ⟨tr, ch, cgd⟩
  rw [hu] at hret
  refine ⟨?_, ?_, ?_⟩
  · simp [RTState.tick, hu]
  · simp [RTState.tick, hu]
  · intro m hm
    simp only [RTState.tick, hu] at hm ⊢
    by_cases hc : cgd = true
    · rw [if_pos hc] at hm
      cases ch with
      | none => exact absurd hm (by simp)
      | some c =>
        refine ⟨c, hret.symm, ?_⟩
        simp only [Option.some.injEq] at hm
        rw [← hm]
    · rw [if_neg hc] at hm
      exact absurd hm (by simp)

/-- Witness for C4 amended, at the tick that accepts the C major chord (so
the accent record is populated). -/
theorem C4_witness :
    ((rt1.tick cTriad (7/5)).bg.map BgOverride.saturation_boost
      = some (pyInt ((rt1.tick cTriad (7/5)).emotion.tension * 50))) ∧
    ((rt1.tick cTriad (7/5)).runner.map RunnerOverride.speed
      = some (pyInt (max 0 (min 255 (rt1.rate_s * 20))))) ∧
    (∀ m, (rt1.tick cTriad (7/5)).mon = some m →
      ∃ c, (rt1.tick cTriad (7/5)).chord_tracker.current = some c ∧
        m.intensity = pyInt (160 * (max 0 (min 1 c.conf))
          * (1 + (rt1.tick cTriad (7/5)).emotion.tension * (1/2)))) :=
  C4_amended rt1 cTriad (7/5)

/-- Counterexample to C3: in the third update the candidate has persisted
beyond `stability_ms`, the gate passes, and the candidate's (root, quality)
equals the current chord's — the claim says `current` and `last_change` are
then left unchanged, but the code replaces `current` (confidence 37/40 → 1)
and moves `last_change` from 1.4 to 2.3 while reporting `changed = false`. -/
theorem C3_counterexample :
    detect_chord cTriad = some ⟨0, "maj", 1⟩ ∧
    ct2.current = some ⟨0, "maj", 37/40⟩ ∧
    ct2.candidate = some ⟨0, "maj", 37/40⟩ ∧
    (23/10 - pyOrFloat ct2.candidate_since (23/10)) * 1000 ≥ ct2.stability_ms ∧
    ct2.last_change = some (7/5) ∧
    ctStep3.2.2 = false ∧
    ct3.current = some ⟨0, "maj", 1⟩ ∧
    ct3.last_change = some (23/10) := by
  norm_num [ct3, ctStep3, ct2, ctStep2, ct1, ctStep1, ct0, ChordTracker.init,
    ChordTracker.update, detect_chord, pitchClasses, updatePc, listMin,
    chordStep, scoreQualityForRoot, QUALITY_INTERVALS, cTriad, cTriadExtra,
    pyOrFloat]

/-- C3 amended: when a detection matches the pending candidate and the
candidate has persisted for at least `stability_ms`, `changed` is true exactly
when the acceptance gate passes AND the candidate's (root, quality) differs
from the previous `current`; but `current` and `last_change` are refreshed
whenever the gate passes, even when the candidate equals the current
(root, quality) — only `changed` depends on the difference. -/
theorem C3_amended (t : ChordTracker) (active : List (ℕ × ℕ)) (now : ℚ)
    (cand c0 : ChordT)
    (hdet : detect_chord active = some cand)
    (hc : t.candidate = some c0)
    (hpair : (cand.root, cand.quality) = (c0.root, c0.quality))
    (hstab : (now - pyOrFloat t.candidate_since now) * 1000 ≥ t.stability_ms) :
    ((t.update active now).2.2 = true ↔
      ((t.current = none ∨
        ((now - pyOrFloat t.last_change 0) * 1000 ≥ t.hold_ms ∧
         ∀ cur, t.current = some cur → cand.conf ≥ cur.conf + 1/20)) ∧
       (∀ cur, t.current = some cur →
         (cand.root, cand.quality) ≠ (cur.root, cur.quality)))) ∧
    ((t.current = none ∨
       ((now - pyOrFloat t.last_change 0) * 1000 ≥ t.hold_ms ∧
        ∀ cur, t.current = some cur → cand.conf ≥ cur.conf + 1/20)) →
      (t.update active now).1.current = some cand ∧
      (t.update active now).1.last_change = some now) ∧
    (¬ (t.current = none ∨
       ((now - pyOrFloat t.last_change 0) * 1000 ≥ t.hold_ms ∧
        ∀ cur, t.current = some cur → cand.conf ≥ cur.conf + 1/20)) →
      (t.update active now).1.current = t.current ∧
      (t.update active now).1.last_change = t.last_change) := by
  have hpairneg : ¬ ((cand.root, cand.quality) ≠ (c0.root, c0.quality)) := by
    simp [hpair]
  unfold ChordTracker.update
  simp only [hdet, hc, if_neg hpairneg, if_pos hstab]
  cases hcur : t.current with
  | none => simp
  | some cur =>
    by_cases hhold : (now - pyOrFloat t.last_change 0) * 1000 ≥ t.hold_ms
    · by_cases hconf : cur.conf + (20:ℚ)⁻¹ ≤ cand.conf
      · simp [hcur, hhold, hconf, decide_eq_true_eq, Prod.ext_iff]
        tauto
      · simp [hcur, hhold, hconf]
    · simp [hcur, hhold]

/-- A tracker with an accepted low-confidence C "maj" and a persisting
pending candidate of the same (root, quality), used to witness C3. -/
def ctGate : ChordTracker :=
  ⟨300, 800, some ⟨0, "maj", 1/2⟩, some ⟨0, "maj", 37/40⟩, some 1, some 1⟩

/-- The pure C major triad detects as (C, "maj") with confidence 1. -/
lemma detect_cTriad : detect_chord cTriad = some ⟨0, "maj", 1⟩ := by
  norm_num [detect_chord, pitchClasses, updatePc, listMin, chordStep,
    scoreQualityForRoot, QUALITY_INTERVALS, cTriad]

/-- Witness for C3 amended at a concrete gate-passing call whose candidate
has the same (root, quality) as the current chord. -/
theorem C3_witness :
    ((ctGate.update cTriad 2).2.2 = true ↔
      ((ctGate.current = none ∨
        ((2 - pyOrFloat ctGate.last_change 0) * 1000 ≥ ctGate.hold_ms ∧
         ∀ cur, ctGate.current = some cur →
           (ChordT.mk 0 "maj" 1).conf ≥ cur.conf + 1/20)) ∧
       (∀ cur, ctGate.current = some cur →
         ((ChordT.mk 0 "maj" 1).root, (ChordT.mk 0 "maj" 1).quality)
           ≠ (cur.root, cur.quality)))) ∧
    ((ctGate.current = none ∨
       ((2 - pyOrFloat ctGate.last_change 0) * 1000 ≥ ctGate.hold_ms ∧
        ∀ cur, ctGate.current = some cur →
          (ChordT.mk 0 "maj" 1).conf ≥ cur.conf + 1/20)) →
      (ctGate.update cTriad 2).1.current = some ⟨0, "maj", 1⟩ ∧
      (ctGate.update cTriad 2).1.last_change = some 2) ∧
    (¬ (ctGate.current = none ∨
       ((2 - pyOrFloat ctGate.last_change 0) * 1000 ≥ ctGate.hold_ms ∧
        ∀ cur, ctGate.current = some cur →
          (ChordT.mk 0 "maj" 1).conf ≥ cur.conf + 1/20)) →
      (ctGate.update cTriad 2).1.current = ctGate.current ∧
      (ctGate.update cTriad 2).1.last_change = ctGate.last_change) :=
  C3_amended ctGate cTriad 2 ⟨0, "maj", 1⟩ ⟨0, "maj", 37/40⟩
    detect_cTriad rfl rfl (by norm_num [ctGate, pyOrFloat])

/-- Every entry of `CHORD_TO_VEC` is componentwise nonnegative. -/
lemma chordVec_nonneg : ∀ p ∈ CHORD_TO_VEC,
    0 ≤ p.2.joy ∧ 0 ≤ p.2.melancholy ∧ 0 ≤ p.2.tension ∧ 0 ≤ p.2.blues := by
  intro p hp
  fin_cases hp <;> norm_num

/-- Every entry of `SCALE_TO_VEC` is componentwise nonnegative. -/
lemma scaleVec_nonneg : ∀ p ∈ SCALE_TO_VEC,
    0 ≤ p.2.joy ∧ 0 ≤ p.2.melancholy ∧ 0 ≤ p.2.tension ∧ 0 ≤ p.2.blues := by
  intro p hp
  fin_cases hp <;> norm_num

/-- Every entry of `CHORD_TO_VEC` has component sum at least 1. -/
lemma chordVec_sum_ge : ∀ p ∈ CHORD_TO_VEC, 1 ≤ emoSum p.2 := by
  intro p hp
  fin_cases hp <;> norm_num [emoSum]

/-- Every entry of `SCALE_TO_VEC` has component sum at least 1. -/
lemma scaleVec_sum_ge : ∀ p ∈ SCALE_TO_VEC, 1 ≤ emoSum p.2 := by
  intro p hp
  fin_cases hp <;> norm_num [emoSum]

/-- A table lookup yields a componentwise nonnegative vector whenever every
table entry is nonnegative (the default is the zero vector). -/
lemma lookupVec_nonneg (tbl : List (String × Emotion))
    (htbl : ∀ p ∈ tbl, 0 ≤ p.2.joy ∧ 0 ≤ p.2.melancholy ∧ 0 ≤ p.2.tension ∧ 0 ≤ p.2.blues)
    (key : Option String) :
    0 ≤ (lookupVec tbl key).joy ∧ 0 ≤ (lookupVec tbl key).melancholy ∧
    0 ≤ (lookupVec tbl key).tension ∧ 0 ≤ (lookupVec tbl key).blues := by
  cases key with
  | none => simp [lookupVec]
  | some s =>
    unfold lookupVec
    cases hf : tbl.find? (fun p => p.1 = s) with
    | none => simp [hf]
    | some p =>
      simp only [hf]
      exact htbl p (List.mem_of_find?_eq_some hf)

/-- Looking up a key that occurs in the table yields a vector with component
sum at least 1, provided every table entry has component sum at least 1. -/
lemma lookup_key_sum_ge (tbl : List (String × Emotion))
    (htbl : ∀ p ∈ tbl, 1 ≤ emoSum p.2) (q : String) (hq : q ∈ tbl.map Prod.fst) :
    1 ≤ emoSum (lookupVec tbl (some q)) := by
  unfold lookupVec
  cases hf : tbl.find? (fun p => p.1 = q) with
  | none =>
    exfalso
    obtain ⟨p, hp, hpq⟩ := List.mem_map.mp hq
    have hsome : (tbl.find? (fun p => p.1 = q)).isSome := by
      rw [List.find?_isSome]
      exact ⟨p, hp, by simp [hpq]⟩
    rw [hf] at hsome
    simp at hsome
  | some p =>
    simp only [hf]
    exact htbl p (List.mem_of_find?_eq_some hf)

/-- `_normalize` below the `1e-9` guard returns the zero vector. -/
lemma normalizeEmotion_eq_zero (v : Emotion) (hs : emoSum v ≤ 1/1000000000) :
    normalizeEmotion v = ⟨0, 0, 0, 0⟩ := by
  simp only [normalizeEmotion]
  rw [if_pos hs]

/-- `_normalize` above the `1e-9` guard divides each component by the sum. -/
lemma normalizeEmotion_eq_div (v : Emotion) (hs : ¬ emoSum v ≤ 1/1000000000) :
    normalizeEmotion v =
      ⟨v.joy / emoSum v, v.melancholy / emoSum v,
       v.tension / emoSum v, v.blues / emoSum v⟩ := by
  simp only [normalizeEmotion]
  rw [if_neg hs]

/-- `_normalize` of a componentwise-nonnegative vector is componentwise
nonnegative with component sum at most 1. -/
lemma normalizeEmotion_bounds (v : Emotion)
    (h0 : 0 ≤ v.joy) (h1 : 0 ≤ v.melancholy) (h2 : 0 ≤ v.tension) (h3 : 0 ≤ v.blues) :
    (0 ≤ (normalizeEmotion v).joy ∧ 0 ≤ (normalizeEmotion v).melancholy ∧
     0 ≤ (normalizeEmotion v).tension ∧ 0 ≤ (normalizeEmotion v).blues) ∧
    emoSum (normalizeEmotion v) ≤ 1 := by
  by_cases hs : emoSum v ≤ 1/1000000000
  · rw [normalizeEmotion_eq_zero v hs]
    norm_num [emoSum]
  · rw [normalizeEmotion_eq_div v hs]
    push_neg at hs
    have hspos : 0 < emoSum v := lt_trans (by norm_num) hs
    have hnum : v.joy + v.melancholy + v.tension + v.blues = emoSum v := rfl
    refine ⟨⟨div_nonneg h0 hspos.le, div_nonneg h1 hspos.le,
      div_nonneg h2 hspos.le, div_nonneg h3 hspos.le⟩, ?_⟩
    show v.joy / emoSum v + v.melancholy / emoSum v + v.tension / emoSum v
        + v.blues / emoSum v ≤ 1
    rw [div_add_div_same, div_add_div_same, div_add_div_same, hnum,
      div_self (ne_of_gt hspos)]

/-- `_normalize` of a vector whose component sum clears the `1e-9` guard has
component sum exactly 1. -/
lemma normalizeEmotion_sum_one (v : Emotion) (h : 1/1000000000 < emoSum v) :
    emoSum (normalizeEmotion v) = 1 := by
  rw [normalizeEmotion_eq_div v (not_le.mpr h)]
  have hspos : 0 < emoSum v := lt_trans (by norm_num) h
  have hnum : v.joy + v.melancholy + v.tension + v.blues = emoSum v := rfl
  show v.joy / emoSum v + v.melancholy / emoSum v + v.tension / emoSum v
      + v.blues / emoSum v = 1
  rw [div_add_div_same, div_add_div_same, div_add_div_same, hnum,
    div_self (ne_of_gt hspos)]

/-- For every pair of optional signals, the `combine` target with the
engine's weights is componentwise nonnegative with component sum at most 1. -/
lemma combine_bounds (cq sm : Option String) :
    (0 ≤ (combine cq sm (3/5) (1/2)).joy ∧
     0 ≤ (combine cq sm (3/5) (1/2)).melancholy ∧
     0 ≤ (combine cq sm (3/5) (1/2)).tension ∧
     0 ≤ (combine cq sm (3/5) (1/2)).blues) ∧
    emoSum (combine cq sm (3/5) (1/2)) ≤ 1 := by
  obtain ⟨hc0, hc1, hc2, hc3⟩ := lookupVec_nonneg CHORD_TO_VEC chordVec_nonneg cq
  obtain ⟨hs0, hs1, hs2, hs3⟩ := lookupVec_nonneg SCALE_TO_VEC scaleVec_nonneg sm
  unfold combine
  exact normalizeEmotion_bounds _ (by linarith) (by linarith) (by linarith) (by linarith)

/-- `combine` of two null signals is the zero vector. -/
lemma combine_none (w1 w2 : ℚ) : combine none none w1 w2 = ⟨0, 0, 0, 0⟩ := by
  norm_num [combine, lookupVec, normalizeEmotion, emoSum]

/-- When either signal is a key of its table, the `combine` target sums to
exactly 1. -/
lemma combine_sum_one (cq sm : Option String)
    (h : (∃ q, cq = some q ∧ q ∈ CHORD_TO_VEC.map Prod.fst) ∨
         (∃ m, sm = some m ∧ m ∈ SCALE_TO_VEC.map Prod.fst)) :
    emoSum (combine cq sm (3/5) (1/2)) = 1 := by
  obtain ⟨hc0, hc1, hc2, hc3⟩ := lookupVec_nonneg CHORD_TO_VEC chordVec_nonneg cq
  obtain ⟨hs0, hs1, hs2, hs3⟩ := lookupVec_nonneg SCALE_TO_VEC scaleVec_nonneg sm
  unfold combine
  apply normalizeEmotion_sum_one
  simp only [emoSum] at *
  rcases h with ⟨q, hq, hqmem⟩ | ⟨m, hm, hmmem⟩
  · have hg := lookup_key_sum_ge CHORD_TO_VEC chordVec_sum_ge q hqmem
    simp only [emoSum] at hg
    rw [hq]
    rw [hq] at hc0 hc1 hc2 hc3
    linarith
  · have hg := lookup_key_sum_ge SCALE_TO_VEC scaleVec_sum_ge m hmmem
    simp only [emoSum] at hg
    rw [hm]
    rw [hm] at hs0 hs1 hs2 hs3
    linarith

/-- The emotion EMA with α = 0.15 preserves componentwise nonnegativity and
the sum bound 1 when the target satisfies them. -/
lemma ema_bounds (e t : Emotion)
    (he : 0 ≤ e.joy ∧ 0 ≤ e.melancholy ∧ 0 ≤ e.tension ∧ 0 ≤ e.blues ∧ emoSum e ≤ 1)
    (ht : (0 ≤ t.joy ∧ 0 ≤ t.melancholy ∧ 0 ≤ t.tension ∧ 0 ≤ t.blues) ∧ emoSum t ≤ 1) :
    0 ≤ (ema e t (3/20)).joy ∧ 0 ≤ (ema e t (3/20)).melancholy ∧
    0 ≤ (ema e t (3/20)).tension ∧ 0 ≤ (ema e t (3/20)).blues ∧
    emoSum (ema e t (3/20)) ≤ 1 := by
  obtain ⟨he0, he1, he2, he3, he4⟩ := he
  obtain ⟨⟨ht0, ht1, ht2, ht3⟩, ht4⟩ := ht
  simp only [ema, emoSum] at *
  refine ⟨by linarith, by linarith, by linarith, by linarith, by linarith⟩

/-- `ChordTracker.update` never clears an accepted chord: if `current` is
`none` afterwards, it was `none` before. -/
lemma update_current_none (t : ChordTracker) (active : List (ℕ × ℕ)) (now : ℚ)
    (h : (t.update active now).1.current = none) : t.current = none := by
  unfold ChordTracker.update at h
  repeat' split at h
  all_goals simp_all

/-- One engine tick preserves the emotion invariant: components nonnegative,
sum at most 1, and all-zero whenever both the chord and scale signals are
null. -/
lemma tick_emotion_inv (s : RTState) (active : List (ℕ × ℕ)) (now : ℚ)
    (h1 : 0 ≤ s.emotion.joy ∧ 0 ≤ s.emotion.melancholy ∧ 0 ≤ s.emotion.tension ∧
      0 ≤ s.emotion.blues ∧ emoSum s.emotion ≤ 1)
    (h2 : s.chord_tracker.current = none ∧ s.scale = none → s.emotion = ⟨0, 0, 0, 0⟩) :
    (0 ≤ (s.tick active now).emotion.joy ∧
     0 ≤ (s.tick active now).emotion.melancholy ∧
     0 ≤ (s.tick active now).emotion.tension ∧
     0 ≤ (s.tick active now).emotion.blues ∧
     emoSum (s.tick active now).emotion ≤ 1) ∧
    ((s.tick active now).chord_tracker.current = none ∧ (s.tick active now).scale = none →
      (s.tick active now).emotion = ⟨0, 0, 0, 0⟩) := by
  have hret := update_returns_current s.chord_tracker active now
  have hcn := update_current_none s.chord_tracker active now
  rcases hu : s.chord_tracker.update active now with ⟨tr, ch, cgd⟩
  rw [hu] at hret hcn
  simp only at hret hcn
  simp only [RTState.tick, hu]
  constructor
  · exact ema_bounds _ _ h1 (combine_bounds _ _)
  · intro hnone
    obtain ⟨hnc, hns⟩ := hnone
    have hsnone : s.scale = none := by
      by_cases href : now - s.last_scale_refresh ≥ 1
      · rw [if_pos href] at hns
        cases hdet : detect_scale s.events now s.scale_window_s with
        | none => rw [hdet] at hns; exact hns
        | some sc => rw [hdet] at hns; exact absurd hns (by simp)
      · rw [if_neg href] at hns
        exact hns
    have hchnone : ch = none := hret.trans hnc
    have hezero : s.emotion = ⟨0, 0, 0, 0⟩ := h2 ⟨hcn hnc, hsnone⟩
    have hscale1 : (if now - s.last_scale_refresh ≥ 1 then
        (match detect_scale s.events now s.scale_window_s with
         | some sc => ((some sc : Option ScaleT), now)
         | none => (s.scale, now))
      else (s.scale, s.last_scale_refresh)).1 = none := hns
    rw [hchnone, hscale1, hezero]
    simp only [Option.map_none']
    rw [combine_none]
    norm_num [ema]

/-- A sequence of ticks preserves the emotion invariant. -/
lemma runTicks_emotion_inv (l : List (List (ℕ × ℕ) × ℚ)) (s : RTState)
    (h1 : 0 ≤ s.emotion.joy ∧ 0 ≤ s.emotion.melancholy ∧ 0 ≤ s.emotion.tension ∧
      0 ≤ s.emotion.blues ∧ emoSum s.emotion ≤ 1)
    (h2 : s.chord_tracker.current = none ∧ s.scale = none → s.emotion = ⟨0, 0, 0, 0⟩) :
    (0 ≤ (runTicks s l).emotion.joy ∧
     0 ≤ (runTicks s l).emotion.melancholy ∧
     0 ≤ (runTicks s l).emotion.tension ∧
     0 ≤ (runTicks s l).emotion.blues ∧
     emoSum (runTicks s l).emotion ≤ 1) ∧
    ((runTicks s l).chord_tracker.current = none ∧ (runTicks s l).scale = none →
      (runTicks s l).emotion = ⟨0, 0, 0, 0⟩) := by
  induction l generalizing s with
  | nil => exact ⟨h1, h2⟩
  | cons p rest ih =>
    have hstep := tick_emotion_inv s p.1 p.2 h1 h2
    exact ih (s.tick p.1 p.2) hstep.1 hstep.2

/-- C1 amended: after any sequence of ticks from a fresh engine the emotion
vector is componentwise nonnegative with component sum at most 1 (not
exactly 1: the EMA only approaches the normalized target); it is all-zero
whenever both the chord and scale signals are null; and it is the `combine`
target — not the smoothed vector — that sums to exactly 1 whenever either
signal carries a known chord quality or scale mode. -/
theorem C1_amended (w : ℚ) (l : List (List (ℕ × ℕ) × ℚ)) :
    (0 ≤ (runTicks (RTState.init w) l).emotion.joy ∧
     0 ≤ (runTicks (RTState.init w) l).emotion.melancholy ∧
     0 ≤ (runTicks (RTState.init w) l).emotion.tension ∧
     0 ≤ (runTicks (RTState.init w) l).emotion.blues ∧
     emoSum (runTicks (RTState.init w) l).emotion ≤ 1) ∧
    ((runTicks (RTState.init w) l).chord_tracker.current = none ∧
      (runTicks (RTState.init w) l).scale = none →
      (runTicks (RTState.init w) l).emotion = ⟨0, 0, 0, 0⟩) ∧
    (∀ cq sm : Option String,
      ((∃ q, cq = some q ∧ q ∈ CHORD_TO_VEC.map Prod.fst) ∨
       (∃ m, sm = some m ∧ m ∈ SCALE_TO_VEC.map Prod.fst)) →
      emoSum (combine cq sm (3/5) (1/2)) = 1) := by
  have hinv := runTicks_emotion_inv l (RTState.init w)
    (by norm_num [RTState.init, emoSum]) (by intro h; rfl)
  exact ⟨hinv.1, hinv.2, fun cq sm h => combine_sum_one cq sm h⟩

/-- Witness for C1 amended: one tick holding the C major triad. -/
theorem C1_witness :
    (0 ≤ (runTicks (RTState.init 3) [(cTriad, 1)]).emotion.joy ∧
     0 ≤ (runTicks (RTState.init 3) [(cTriad, 1)]).emotion.melancholy ∧
     0 ≤ (runTicks (RTState.init 3) [(cTriad, 1)]).emotion.tension ∧
     0 ≤ (runTicks (RTState.init 3) [(cTriad, 1)]).emotion.blues ∧
     emoSum (runTicks (RTState.init 3) [(cTriad, 1)]).emotion ≤ 1) ∧
    ((runTicks (RTState.init 3) [(cTriad, 1)]).chord_tracker.current = none ∧
      (runTicks (RTState.init 3) [(cTriad, 1)]).scale = none →
      (runTicks (RTState.init 3) [(cTriad, 1)]).emotion = ⟨0, 0, 0, 0⟩) ∧
    (∀ cq sm : Option String,
      ((∃ q, cq = some q ∧ q ∈ CHORD_TO_VEC.map Prod.fst) ∨
       (∃ m, sm = some m ∧ m ∈ SCALE_TO_VEC.map Prod.fst)) →
      emoSum (combine cq sm (3/5) (1/2)) = 1) :=
  C1_amended 3 [(cTriad, 1)]

/-- Sum of a mapped list scaled by a constant factor. -/
lemma sum_map_mul (w : ℚ) (f : ℕ → ℚ) (l : List ℕ) :
    (l.map (fun pc => w * f pc)).sum = w * (l.map f).sum := by
  induction l with
  | nil => simp
  | cons a t ih =>
    simp only [List.map_cons, List.sum_cons, ih]
    ring

/-- Sum of a scaled rational list. -/
lemma sum_map_mul_self (w : ℚ) (h : List ℚ) :
    (h.map (fun x => w * x)).sum = w * h.sum := by
  induction h with
  | nil => simp
  | cons a t ih =>
    simp only [List.map_cons, List.sum_cons, ih]
    ring

/-- `getD` with default 0 commutes with scaling a rational list. -/
lemma getD_map_mul (w : ℚ) (h : List ℚ) (pc : ℕ) :
    (h.map (fun x => w * x)).getD pc 0 = w * h.getD pc 0 := by
  induction h generalizing pc with
  | nil => simp
  | cons a t ih =>
    cases pc with
    | zero => simp
    | succ n => simpa using ih n

/-- Scaling a histogram by a nonzero factor leaves every coverage value
unchanged (the factor cancels between `in_sum` and `total`). -/
lemma coverageFor_smul (w : ℚ) (hw : w ≠ 0) (h : List ℚ) (rootPc : ℕ) (templ : List ℕ) :
    coverageFor (h.map (fun x => w * x)) rootPc templ = coverageFor h rootPc templ := by
  unfold coverageFor
  simp only [getD_map_mul, sum_map_mul, sum_map_mul_self]
  exact mul_div_mul_left _ _ hw

/-- The scale-fold step only reads the histogram through `coverageFor`. -/
lemma scaleStep_congr (h h' : List ℚ)
    (hcov : ∀ rootPc templ, coverageFor h rootPc templ = coverageFor h' rootPc templ)
    (b : Option ScaleT) (x : String × List ℕ × ℕ) :
    scaleStep h b x = scaleStep h' b x := by
  cases b <;> simp [scaleStep, hcov]

/-- Folding the scale step over any combination list is invariant under
coverage-preserving histogram changes. -/
lemma foldl_scaleStep_congr (h h' : List ℚ)
    (hcov : ∀ rootPc templ, coverageFor h rootPc templ = coverageFor h' rootPc templ) :
    ∀ (L : List (String × List ℕ × ℕ)) (b : Option ScaleT),
      L.foldl (scaleStep h) b = L.foldl (scaleStep h') b := by
  intro L
  induction L with
  | nil => intro b; rfl
  | cons x t ih =>
    intro b
    rw [List.foldl_cons, List.foldl_cons, scaleStep_congr h h' hcov b x, ih]

/-- `scaleFold` is invariant under coverage-preserving histogram changes. -/
lemma scaleFold_congr (h h' : List ℚ)
    (hcov : ∀ rootPc templ, coverageFor h rootPc templ = coverageFor h' rootPc templ) :
    scaleFold h = scaleFold h' :=
  foldl_scaleStep_congr h h' hcov _ none

/-- The weighted C-major histogram is the indicator histogram scaled by `w`. -/
lemma cMajorHist_smul (w : ℚ) :
    cMajorHist w = (cMajorHist 1).map (fun x => w * x) := by
  simp [cMajorHist]

/-- On the C-major indicator histogram the best-coverage fold returns
(C, "major") with coverage 1 — "major" is enumerated before "minor", and a tie
never displaces the incumbent. -/
lemma scaleFold_indicator : scaleFold (cMajorHist 1) = some ⟨0, "major", 1⟩ := by
  norm_num [scaleFold, scaleStep, coverageFor, SCALE_TEMPLATES, cMajorHist,
    List.range_succ]

/-- Every loop combination scores coverage at most 1 on the C-major indicator
histogram. -/
lemma coverage_indicator_le : ∀ mt ∈ SCALE_TEMPLATES, ∀ root < 12,
    coverageFor (cMajorHist 1) root mt.2 ≤ 1 := by
  intro mt hmt root hroot
  fin_cases hmt <;> interval_cases root <;> norm_num [coverageFor, cMajorHist]

/-- The relative minor (A, "minor") also attains coverage 1 on the C-major
indicator histogram. -/
lemma coverage_indicator_aminor :
    coverageFor (cMajorHist 1) 9 [0, 2, 3, 5, 7, 8, 10] = 1 := by
  norm_num [coverageFor, cMajorHist]

/-- C2 amended: on any event log whose histogram is the equally-weighted
C-major indicator (weight `w` per scale pitch class, clearing the `1e-6`
total-mass guard), the estimator returns (C, "major") with coverage 1; that
coverage is greater than or equal to — not strictly greater than — every
other (root, mode) combination's, and the relative minor (A, "minor")
attains coverage 1 as well. -/
theorem C2_amended (events : List EventT) (now w : ℚ)
    (hne : ¬ events = []) (hw : 0 < w) (hguard : ¬ (7 * w < 1/1000000))
    (hhist : pcHistogram events now 3 = cMajorHist w) :
    detect_scale events now 3 = some ⟨0, "major", 1⟩ ∧
    (∀ mt ∈ SCALE_TEMPLATES, ∀ root < 12,
      coverageFor (pcHistogram events now 3) root mt.2 ≤ 1) ∧
    coverageFor (pcHistogram events now 3) 9 [0, 2, 3, 5, 7, 8, 10] = 1 := by
  have hsum : (cMajorHist w).sum = 7 * w := by
    simp [cMajorHist]
    ring
  have hcov : ∀ rootPc templ, coverageFor (cMajorHist w) rootPc templ
      = coverageFor (cMajorHist 1) rootPc templ := by
    intro rootPc templ
    rw [cMajorHist_smul w]
    exact coverageFor_smul w (ne_of_gt hw) _ rootPc templ
  refine ⟨?_, ?_, ?_⟩
  · simp only [detect_scale]
    rw [if_neg hne, hhist, hsum, if_neg hguard, scaleFold_congr _ _ hcov,
      scaleFold_indicator]
  · intro mt hmt root hroot
    rw [hhist, hcov]
    exact coverage_indicator_le mt hmt root hroot
  · rw [hhist, hcov]
    exact coverage_indicator_aminor

/-- Witness for C2 amended at the concrete equally-weighted C-major log
(velocity 100, weight 100/127 per pitch class). -/
theorem C2_witness :
    detect_scale cMajorLog 3 3 = some ⟨0, "major", 1⟩ ∧
    (∀ mt ∈ SCALE_TEMPLATES, ∀ root < 12,
      coverageFor (pcHistogram cMajorLog 3 3) root mt.2 ≤ 1) ∧
    coverageFor (pcHistogram cMajorLog 3 3) 9 [0, 2, 3, 5, 7, 8, 10] = 1 :=
  C2_amended cMajorLog 3 (100/127) (by simp [cMajorLog]) (by norm_num)
    (by norm_num)
    (by norm_num [pcHistogram, cMajorLog, cMajorHist, List.replicate])

/-- The keys of a pitch-class dict update: unchanged when the pitch class is
already present, appended otherwise. -/
lemma updatePc_keys (pcs : List (ℕ × ℕ)) (pc vel : ℕ) :
    (updatePc pcs pc vel).map Prod.fst =
      if pc ∈ pcs.map Prod.fst then pcs.map Prod.fst else pcs.map Prod.fst ++ [pc] := by
  induction pcs with
  | nil => simp [updatePc]
  | cons kv rest ih =>
    obtain ⟨k, v⟩ := kv
    by_cases hk : k = pc
    · subst hk
      simp [updatePc]
    · simp only [updatePc, if_neg hk, List.map_cons]
      by_cases hmem : pc ∈ rest.map Prod.fst
      · rw [ih, if_pos hmem, if_pos (by simp [hmem])]
      · rw [ih, if_neg hmem,
          if_neg (by
            simp only [List.mem_cons]
            rintro (h | h)
            · exact hk h.symm
            · exact hmem h),
          List.cons_append]

/-- The key set built by the `_pitch_classes` fold is the accumulator's key
set united with the pitch classes of the notes. -/
lemma pitchClasses_foldl_keys_toFinset (active : List (ℕ × ℕ)) :
    ∀ acc, ((active.foldl (fun pcs nv => updatePc pcs (nv.1 % 12) nv.2) acc).map
        Prod.fst).toFinset
      = (acc.map Prod.fst).toFinset ∪ (active.map (fun p => p.1 % 12)).toFinset := by
  induction active with
  | nil => intro acc; simp
  | cons e t ih =>
    intro acc
    rw [List.foldl_cons, ih]
    have h := updatePc_keys acc (e.1 % 12) e.2
    by_cases hmem : e.1 % 12 ∈ acc.map Prod.fst
    · rw [if_pos hmem] at h
      rw [h]
      ext x
      simp only [Finset.mem_union, List.mem_toFinset, List.map_cons, List.mem_cons]
      constructor
      · rintro (hx | hx)
        · exact Or.inl hx
        · exact Or.inr (Or.inr hx)
      · rintro (hx | hx | hx)
        · exact Or.inl hx
        · exact Or.inl (hx ▸ hmem)
        · exact Or.inr hx
    · rw [if_neg hmem] at h
      rw [h]
      ext x
      simp only [Finset.mem_union, List.mem_toFinset, List.map_cons, List.mem_cons,
        List.mem_append, List.mem_singleton]
      tauto

/-- The key set of `_pitch_classes` is exactly the set of sounding pitch
classes. -/
lemma pitchClasses_keys_toFinset (active : List (ℕ × ℕ)) :
    ((pitchClasses active).map Prod.fst).toFinset
      = (active.map (fun p => p.1 % 12)).toFinset := by
  have h := pitchClasses_foldl_keys_toFinset active []
  simpa [pitchClasses] using h

/-- The `_pitch_classes` fold keeps its keys duplicate-free. -/
lemma pitchClasses_foldl_keys_nodup (active : List (ℕ × ℕ)) :
    ∀ acc, (acc.map Prod.fst).Nodup →
      ((active.foldl (fun pcs nv => updatePc pcs (nv.1 % 12) nv.2) acc).map
        Prod.fst).Nodup := by
  induction active with
  | nil => intro acc h; simpa using h
  | cons e t ih =>
    intro acc h
    rw [List.foldl_cons]
    apply ih
    have hk := updatePc_keys acc (e.1 % 12) e.2
    by_cases hmem : e.1 % 12 ∈ acc.map Prod.fst
    · rw [if_pos hmem] at hk
      rw [hk]
      exact h
    · rw [if_neg hmem] at hk
      rw [hk]
      simp [List.nodup_append, h, hmem]

/-- The keys of `_pitch_classes` are duplicate-free. -/
lemma pitchClasses_keys_nodup (active : List (ℕ × ℕ)) :
    ((pitchClasses active).map Prod.fst).Nodup :=
  pitchClasses_foldl_keys_nodup active [] (by simp)

/-- A pitch-class dict update adds at most one entry. -/
lemma updatePc_length (pcs : List (ℕ × ℕ)) (pc vel : ℕ) :
    (updatePc pcs pc vel).length ≤ pcs.length + 1 := by
  have h := updatePc_keys pcs pc vel
  by_cases hmem : pc ∈ pcs.map Prod.fst
  · rw [if_pos hmem] at h
    have h2 := congrArg List.length h
    simp only [List.length_map] at h2
    omega
  · rw [if_neg hmem] at h
    have h2 := congrArg List.length h
    simp only [List.length_map, List.length_append, List.length_singleton] at h2
    omega

/-- The pitch-class mapping has no more entries than there are notes. -/
lemma pitchClasses_foldl_length (active : List (ℕ × ℕ)) :
    ∀ acc, (active.foldl (fun pcs nv => updatePc pcs (nv.1 % 12) nv.2) acc).length
      ≤ acc.length + active.length := by
  induction active with
  | nil => intro acc; simp
  | cons e t ih =>
    intro acc
    rw [List.foldl_cons]
    have h1 := ih (updatePc acc (e.1 % 12) e.2)
    have h2 := updatePc_length acc (e.1 % 12) e.2
    simp only [List.length_cons]
    omega

/-- A fold of `min` over naturals stays among its inputs. -/
lemma foldl_min_mem : ∀ (xs : List ℕ) (a : ℕ), xs.foldl min a ∈ a :: xs := by
  intro xs
  induction xs with
  | nil => intro a; simp
  | cons x t ih =>
    intro a
    rw [List.foldl_cons]
    have h := ih (min a x)
    rcases List.mem_cons.mp h with h1 | h1
    · rcases min_choice a x with hm | hm
      · rw [h1, hm]
        exact List.mem_cons_self _ _
      · rw [h1, hm]
        exact List.mem_cons_of_mem _ (List.mem_cons_self _ _)
    · exact List.mem_cons_of_mem _ (List.mem_cons_of_mem _ h1)

/-- The minimum of a nonempty list of naturals is one of its entries. -/
lemma listMin_mem (l : List ℕ) (h : l ≠ []) : listMin l ∈ l := by
  cases l with
  | nil => exact absurd rfl h
  | cons x xs => exact foldl_min_mem xs x

/-- The chord score reads the pitch-class mapping only through its key list:
velocities never enter `_score_quality_for_root`. -/
lemma score_eq_scoreKeys (pcs : List (ℕ × ℕ)) (rootPc : ℕ) (ivs : List ℕ) :
    scoreQualityForRoot pcs rootPc ivs
      = scoreKeys (pcs.map Prod.fst) rootPc ivs := by
  have hhits : ivs.filter (fun iv => pcs.any (fun p => p.1 = (rootPc + iv) % 12))
      = ivs.filter (fun iv => (rootPc + iv) % 12 ∈ pcs.map Prod.fst) := by
    apply List.filter_congr
    intro iv _
    rw [Bool.eq_iff_iff]
    simp only [List.any_eq_true, decide_eq_true_eq, List.mem_map]
  have hprec : (pcs.filter (fun p => p.1 ∈ ivs.map (fun iv => (rootPc + iv) % 12))).length
      = ((pcs.map Prod.fst).filter
          (fun pc => pc ∈ ivs.map (fun iv => (rootPc + iv) % 12))).length := by
    conv_rhs => rw [List.filter_map]
    rw [List.length_map]
    rfl
  simp only [scoreQualityForRoot, scoreKeys]
  rw [hhits, hprec, List.length_map]

/-- The chord score is invariant under permuting the key list. -/
lemma scoreKeys_perm (ks ks' : List ℕ) (hperm : ks.Perm ks') (rootPc : ℕ) (ivs : List ℕ) :
    scoreKeys ks rootPc ivs = scoreKeys ks' rootPc ivs := by
  simp only [scoreKeys]
  have hhits : ivs.filter (fun iv => (rootPc + iv) % 12 ∈ ks)
      = ivs.filter (fun iv => (rootPc + iv) % 12 ∈ ks') := by
    apply List.filter_congr
    intro iv _
    simp only [decide_eq_decide]
    exact hperm.mem_iff
  have hlen : (ks.filter (fun pc => pc ∈ ivs.map (fun iv => (rootPc + iv) % 12))).length
      = (ks'.filter (fun pc => pc ∈ ivs.map (fun iv => (rootPc + iv) % 12))).length :=
    (hperm.filter _).length_eq
  rw [hhits, hlen, hperm.length_eq]

/-- A best-candidate step never replaces an incumbent whose confidence is at
least the new score. -/
lemma chordStep_stay (pcs : List (ℕ × ℕ)) (c : ChordT) (x : ℕ × String × List ℕ)
    (hx : scoreQualityForRoot pcs x.1 x.2.2 ≤ c.conf) :
    chordStep pcs (some c) x = some c := by
  simp only [chordStep]
  by_cases hlt : scoreQualityForRoot pcs x.1 x.2.2 < 1/2
  · rw [if_pos hlt]
  · rw [if_neg hlt, if_neg (not_lt.mpr hx)]

/-- Folding the best-candidate step over items that never beat the incumbent
keeps the incumbent. -/
lemma foldl_chordStep_stay (pcs : List (ℕ × ℕ)) (c : ChordT) :
    ∀ L : List (ℕ × String × List ℕ),
      (∀ x ∈ L, scoreQualityForRoot pcs x.1 x.2.2 ≤ c.conf) →
      L.foldl (chordStep pcs) (some c) = some c := by
  intro L
  induction L with
  | nil => intro _; rfl
  | cons x t ih =>
    intro h
    rw [List.foldl_cons, chordStep_stay pcs c x (h x (List.mem_cons_self x t))]
    exact ih fun y hy => h y (List.mem_cons_of_mem _ hy)

/-- The best-candidate fold returns the unique strict maximum: if `m` occurs
in the list with score `M ≥ 1/2`, every other item scores strictly below `M`,
and the initial best is absent or weaker, the fold ends at `m`. -/
lemma foldl_chordStep_best (pcs : List (ℕ × ℕ)) (M : ℚ) (m : ℕ × String × List ℕ)
    (hscore : scoreQualityForRoot pcs m.1 m.2.2 = M) (hM : 1/2 ≤ M) :
    ∀ (L : List (ℕ × String × List ℕ)) (b : Option ChordT),
      m ∈ L →
      (b = none ∨ ∃ bc : ChordT, b = some bc ∧ bc.conf < M) →
      (∀ x ∈ L, x ≠ m → scoreQualityForRoot pcs x.1 x.2.2 < M) →
      L.foldl (chordStep pcs) b = some ⟨m.1, m.2.1, M⟩ := by
  intro L
  induction L with
  | nil =>
    intro b hm _ _
    exact absurd hm (List.not_mem_nil m)
  | cons x t ih =>
    intro b hm hb hlt
    rw [List.foldl_cons]
    by_cases hxm : x = m
    · subst hxm
      have hstep : chordStep pcs b x = some ⟨x.1, x.2.1, M⟩ := by
        rcases hb with hb | ⟨bc, hb, hbc⟩
        · subst hb
          simp only [chordStep, hscore]
          rw [if_neg (not_lt.mpr hM)]
        · subst hb
          simp only [chordStep, hscore]
          rw [if_neg (not_lt.mpr hM), if_pos hbc]
      rw [hstep]
      apply foldl_chordStep_stay
      intro y hy
      by_cases hym : y = x
      · rw [hym, hscore]
      · exact (hlt y (List.mem_cons_of_mem _ hy) hym).le
    · have hx := hlt x (List.mem_cons_self x t) hxm
      have hm2 : m ∈ t := by
        rcases List.mem_cons.mp hm with h | h
        · exact absurd h.symm hxm
        · exact h
      have hstep : chordStep pcs b x = none ∨
          ∃ bc : ChordT, chordStep pcs b x = some bc ∧ bc.conf < M := by
        rcases hb with hb | ⟨bc, hb, hbc⟩
        · subst hb
          simp only [chordStep]
          by_cases hsk : scoreQualityForRoot pcs x.1 x.2.2 < 1/2
          · rw [if_pos hsk]
            exact Or.inl rfl
          · rw [if_neg hsk]
            exact Or.inr ⟨_, rfl, hx⟩
        · subst hb
          simp only [chordStep]
          by_cases hsk : scoreQualityForRoot pcs x.1 x.2.2 < 1/2
          · rw [if_pos hsk]
            exact Or.inr ⟨bc, rfl, hbc⟩
          · rw [if_neg hsk]
            by_cases hgt : scoreQualityForRoot pcs x.1 x.2.2 > bc.conf
            · rw [if_pos hgt]
              exact Or.inr ⟨_, rfl, hx⟩
            · rw [if_neg hgt]
              exact Or.inr ⟨bc, rfl, hbc⟩
      exact ih _ hm2 hstep fun y hy hym => hlt y (List.mem_cons_of_mem _ hy) hym

/-- The canonical triad list has no duplicate pitch classes. -/
lemma triadList_nodup (r : ℕ) (hr : r < 12) : (triadList r).Nodup := by
  interval_cases r <;> decide

/-- The canonical triad list enumerates the triad pitch-class set. -/
lemma triadList_toFinset (r : ℕ) : (triadList r).toFinset = triadPcs r := by
  simp [triadList, triadPcs]

/-- The triad root is in the canonical triad list. -/
lemma triadList_self_mem (r : ℕ) (hr : r < 12) : r ∈ triadList r := by
  simp [triadList, Nat.mod_eq_of_lt hr]

/-- On the triad key list, the major quality at the triad root scores
exactly 1. -/
lemma triad_score_maj (r : ℕ) (hr : r < 12) :
    scoreKeys (triadList r) r [0, 4, 7] = 1 := by
  interval_cases r <;> norm_num [scoreKeys, triadList]

set_option maxHeartbeats 3200000 in
/-- On the triad key list, every other (candidate root, quality) pair scores
strictly below 1. -/
lemma triad_score_lt (r : ℕ) (hr : r < 12) :
    ∀ root ∈ triadList r, ∀ p ∈ QUALITY_INTERVALS,
      ¬ (root = r ∧ p.1 = "maj") → scoreKeys (triadList r) root p.2 < 1 := by
  intro root hroot p hp
  interval_cases r <;> fin_cases hroot <;> fin_cases hp <;>
    norm_num [scoreKeys, triadList]

/-- In `QUALITY_INTERVALS` the quality name "maj" carries exactly the
intervals [0, 4, 7]. -/
lemma maj_intervals (p : String × List ℕ) (hp : p ∈ QUALITY_INTERVALS)
    (hmaj : p.1 = "maj") : p.2 = [0, 4, 7] := by
  fin_cases hp <;> simp_all

/-- C7: for every root pitch class `r` and every held-note mapping whose
distinct pitch classes are exactly the pure major triad on `r`,
`detect_chord` returns (r, "maj") with confidence 1 (≥ 0.5), this is the
score of "maj" at root r, and every other quality at root r scores strictly
below it. -/
theorem C7_major_triad (r : ℕ) (hr : r < 12) (active : List (ℕ × ℕ))
    (hpcs : ((pitchClasses active).map Prod.fst).toFinset = triadPcs r) :
    detect_chord active = some ⟨r, "maj", 1⟩ ∧
    scoreQualityForRoot (pitchClasses active) r [0, 4, 7] = 1 ∧
    (1/2 : ℚ) ≤ 1 ∧
    (∀ p ∈ QUALITY_INTERVALS, p.1 ≠ "maj" →
      scoreQualityForRoot (pitchClasses active) r p.2 < 1) := by
  have hnd := pitchClasses_keys_nodup active
  have hperm : ((pitchClasses active).map Prod.fst).Perm (triadList r) :=
    List.perm_of_nodup_nodup_toFinset_eq hnd (triadList_nodup r hr)
      (by rw [hpcs, triadList_toFinset])
  have hsc : scoreQualityForRoot (pitchClasses active) r [0, 4, 7] = 1 := by
    rw [score_eq_scoreKeys, scoreKeys_perm _ _ hperm]
    exact triad_score_maj r hr
  have hkeylen : ((pitchClasses active).map Prod.fst).length = 3 :=
    hperm.length_eq
  have hpcslen : (pitchClasses active).length = 3 := by
    rw [← hkeylen, List.length_map]
  have hactive_len : 3 ≤ active.length := by
    have h := pitchClasses_foldl_length active []
    simp only [pitchClasses] at hpcslen
    simp only [List.length_nil, Nat.zero_add] at h
    omega
  have hg1 : ¬ (active.length < 2) := by omega
  have hg2 : ¬ ((pitchClasses active).length < 2) := by omega
  have hbassmem : listMin (active.map Prod.fst) % 12
      ∈ (pitchClasses active).map Prod.fst := by
    have hne : active ≠ [] := by
      intro h
      rw [h] at hactive_len
      simp at hactive_len
    have hmem := listMin_mem (active.map Prod.fst) (by simpa using hne)
    obtain ⟨p, hp, hpe⟩ := List.mem_map.mp hmem
    rw [← List.mem_toFinset, pitchClasses_keys_toFinset, List.mem_toFinset, ← hpe]
    exact List.mem_map_of_mem (fun q => q.1 % 12) hp
  have hmem_r : r ∈ (pitchClasses active).map Prod.fst := by
    rw [← List.mem_toFinset, hpcs]
    simp [triadPcs, Nat.mod_eq_of_lt hr]
  have hmain : detect_chord active = some ⟨r, "maj", 1⟩ := by
    simp only [detect_chord]
    rw [if_neg hg1, if_neg hg2, if_pos hbassmem]
    apply foldl_chordStep_best (pitchClasses active) 1 (r, ("maj", [0, 4, 7]))
      hsc (by norm_num)
    · rw [List.mem_flatMap]
      refine ⟨r, hmem_r, ?_⟩
      rw [List.mem_map]
      exact ⟨("maj", [0, 4, 7]), by simp [QUALITY_INTERVALS], rfl⟩
    · exact Or.inl rfl
    · intro x hx hxm
      rw [List.mem_flatMap] at hx
      obtain ⟨root, hroot, hxq⟩ := hx
      rw [List.mem_map] at hxq
      obtain ⟨q, hq, hxeq⟩ := hxq
      subst hxeq
      have hrootmem : root ∈ triadList r := by
        have h2 : root ∈ ((pitchClasses active).map Prod.fst).toFinset :=
          List.mem_toFinset.mpr hroot
        rw [hpcs, ← triadList_toFinset r] at h2
        exact List.mem_toFinset.mp h2
      have hne2 : ¬ (root = r ∧ q.1 = "maj") := by
        rintro ⟨hr1, hq1⟩
        apply hxm
        subst hr1
        have hq2 : q = ("maj", [0, 4, 7]) := Prod.ext hq1 (maj_intervals q hq hq1)
        rw [hq2]
      rw [score_eq_scoreKeys, scoreKeys_perm _ _ hperm]
      exact triad_score_lt r hr root hrootmem q hq hne2
  refine ⟨hmain, hsc, by norm_num, ?_⟩
  intro p hp hpmaj
  rw [score_eq_scoreKeys, scoreKeys_perm _ _ hperm]
  exact triad_score_lt r hr r (triadList_self_mem r hr) p hp
    fun h => hpmaj h.2

/-- Witness for C7 at the concrete C major triad C4–E4–G4. -/
theorem C7_witness :
    detect_chord cTriad = some ⟨0, "maj", 1⟩ ∧
    scoreQualityForRoot (pitchClasses cTriad) 0 [0, 4, 7] = 1 ∧
    (1/2 : ℚ) ≤ 1 ∧
    (∀ p ∈ QUALITY_INTERVALS, p.1 ≠ "maj" →
      scoreQualityForRoot (pitchClasses cTriad) 0 p.2 < 1) :=
  C7_major_triad 0 (by norm_num) cTriad (by decide)

end LDP
